import Mathlib

/-
Verification of the concurrency/orchestration core of the Resume-Reviewer
frontend (src/frontend/lib/concurrency.ts, src/frontend/lib/ollama.ts,
src/frontend/components/FileUpload.tsx), as a shallow embedding in Lean 4.

The promise-based JavaScript is modelled as explicit state machines:
`SemState` embeds the `Semaphore` class field-for-field, `semRunTrace`
runs an arbitrary balanced trace of acquire/release operations against it,
and the `PLState` machine embeds a run of `parallelLimit` where the
scheduler (the event loop) is an adversary choosing which in-flight
task advances at each step.  Pure functions (`shouldUseConservativeMode`,
`extractSkills`, `parseJSON`, `analyzeResumeMatch`) are embedded directly.
-/
namespace ResumeReviewer

/-! ## Semaphore (src/frontend/lib/concurrency.ts, lines 5-41) -/
/-- State of a `Semaphore` object: `permits` is the private numeric field,
`tasks` is the FIFO queue of pending resolvers, identified here by the
numeric id of the waiting acquirer. -/
structure SemState where
  permits : Int
  tasks : List Nat

/-- The constructor `constructor(permits) { this.permits = permits }`.
Note the source performs no validation of the argument. -/
def mkSemaphore (permits : Int) : SemState :=
  { permits := permits, tasks := [] }

/-- `acquire()` (lines 13-22): if a permit is available it is taken
synchronously (`true`); otherwise the caller's resolver is appended to the
`tasks` queue (`false`). -/
def semAcquire (id : Nat) (s : SemState) : SemState × Bool :=
  if 0 < s.permits then
    ({ permits := s.permits - 1, tasks := s.tasks }, true)
  else
    ({ permits := s.permits, tasks := s.tasks ++ [id] }, false)

/-- `release()` (lines 24-31): increment `permits`, shift the queue; if a
waiter was queued, decrement `permits` again and resolve that waiter. -/
def semRelease (s : SemState) : SemState × Option Nat :=
  match s.tasks with
  | [] => ({ permits := s.permits + 1, tasks := [] }, none)
  | t :: rest => ({ permits := s.permits + 1 - 1, tasks := rest }, some t)

/-! ### A trace machine for concurrent acquire/release against one Semaphore.

An operation is either an `acquire` by a fresh caller (identified by a
numeric id) or a `release` by some current holder.  The ghost fields
`holders` (number of callers currently holding a permit), `enqueued`
(ids that went to the wait queue, in arrival order) and `dequeued`
(ids granted from the wait queue, in grant order) record the history
without influencing the semaphore itself. -/
inductive SemOp where
  | acq (id : Nat)
  | rel

structure SemRun where
  sem : SemState
  holders : Nat
  enqueued : List Nat
  dequeued : List Nat

def semInit (capacity : Int) : SemRun :=
  { sem := mkSemaphore capacity, holders := 0, enqueued := [], dequeued := [] }

/-- One operation against the semaphore.  A `rel` by a non-holder is an
unbalanced release and is rejected (`none`): the claims quantify over
balanced traces only. -/
def semStep (st : SemRun) : SemOp → Option SemRun
  | SemOp.acq id =>
    let r := semAcquire id st.sem
    if r.2 then
      some { sem := r.1, holders := st.holders + 1,
             enqueued := st.enqueued, dequeued := st.dequeued }
    else
      some { sem := r.1, holders := st.holders,
             enqueued := st.enqueued ++ [id], dequeued := st.dequeued }
  | SemOp.rel =>
    if st.holders = 0 then none
    else
      let r := semRelease st.sem
      match r.2 with
      | none =>
        some { sem := r.1, holders := st.holders - 1,
               enqueued := st.enqueued, dequeued := st.dequeued }
      | some t =>
        some { sem := r.1, holders := st.holders - 1 + 1,
               enqueued := st.enqueued, dequeued := st.dequeued ++ [t] }

def semRunTrace (capacity : Int) (ops : List SemOp) : Option SemRun :=
  ops.foldl (fun acc op => acc.bind (fun st => semStep st op)) (some (semInit capacity))

/-- Invariant of a balanced trace: the permit count plus the number of
holders is exactly the capacity, the permit count never goes negative,
waiters exist only when no permit is free, and grants from the queue are
a prefix of arrivals in order (strict FIFO). -/
def SemInv (capacity : Int) (st : SemRun) : Prop :=
  st.sem.permits + (st.holders : Int) = capacity ∧
  0 ≤ st.sem.permits ∧
  (st.sem.tasks ≠ [] → st.sem.permits ≤ 0) ∧
  st.enqueued = st.dequeued ++ st.sem.tasks

/-! ## ConcurrencyConfig (src/frontend/lib/concurrency.ts, lines 61-73) -/
def ConcurrencyConfig.MAX_RESUME_PROCESSING : Nat := 2

def ConcurrencyConfig.MAX_LLM_CALLS : Nat := 3

def ConcurrencyConfig.MAX_PDF_PARSING : Nat := 5

def ConcurrencyConfig.LLM_TIMEOUT : Nat := 60000

/-! ## Resource profile selector (src/frontend/lib/concurrency.ts, lines 79-100) -/
/-- Host capability hints.  `none` models `navigator` being undefined or the
field being absent; `navigator.deviceMemory` is a JS number (modelled as a
rational), `navigator.hardwareConcurrency` an integer. -/
structure ResourceHints where
  deviceMemory : Option ℚ
  hardwareConcurrency : Option ℕ

/-- The guard `deviceMemory && deviceMemory < 4`: JS truthiness means an
absent or zero value never passes the guard. -/
def memoryLow (h : ResourceHints) : Bool :=
  match h.deviceMemory with
  | some m => decide (m ≠ 0) && decide (m < 4)
  | none => false

/-- The guard `cores && cores < 4`, with the same truthiness semantics. -/
def coresLow (h : ResourceHints) : Bool :=
  match h.hardwareConcurrency with
  | some c => decide (c ≠ 0) && decide (c < 4)
  | none => false

/-- `shouldUseConservativeMode()`: true when the memory hint is reported and
below 4, or the parallelism hint is reported and below 4; false otherwise
(in particular when `navigator` is undefined, i.e. both hints are `none`). -/
def shouldUseConservativeMode (h : ResourceHints) : Bool :=
  memoryLow h || coresLow h

/-- `const maxConcurrentResumes = conservativeMode ? 1 :
ConcurrencyConfig.MAX_RESUME_PROCESSING` (FileUpload.tsx line 131). -/
def maxConcurrentResumes (h : ResourceHints) : ℕ :=
  if shouldUseConservativeMode h then 1 else ConcurrencyConfig.MAX_RESUME_PROCESSING

/-! ## Batch envelope dataflow of `handleSubmit`
(src/frontend/components/FileUpload.tsx, lines 126-232)

The concurrency dynamics of the per-item pipelines are modelled by the
`PLState` machine below; here we model the dataflow of the orchestration:
which results reach the final `onUploadSuccess` envelope, and how the side
task (`api.rankProjects`) and per-item failures influence it. -/
/-- `if (files.length > 1)`: the project-ranking side task is started
exactly for multi-file batches (FileUpload.tsx line 142). -/
def sideTaskStarted {ι : Type} (files : List ι) : Bool :=
  decide (1 < files.length)

/-- `.catch(err => undefined)` (FileUpload.tsx lines 144-147): a side-task
failure is swallowed and becomes `undefined`. -/
def catchToOption {ε ρ : Type} : Except ε ρ → Option ρ
  | Except.ok r => some r
  | Except.error _ => none

/-- `Promise.all` on an ordered list of settled outcomes: the first failure
(in list order) rejects the whole batch, otherwise the ordered list of
values is produced. -/
def collectAll {ε α : Type} : List (Except ε α) → Except ε (List α)
  | [] => Except.ok []
  | Except.ok a :: rest =>
    match collectAll rest with
    | Except.ok as => Except.ok (a :: as)
    | Except.error e => Except.error e
  | Except.error e :: _ => Except.error e

/-- `items.map((item, index) => ...)` with explicit start index. -/
def mapIdxF {α β : Type} (f : ℕ → α → β) : ℕ → List α → List β
  | _, [] => []
  | i, x :: xs => f i x :: mapIdxF f (i + 1) xs

/-- The envelope delivered to `onUploadSuccess`: the ordered per-item
results and the optional side-task (project ranking) result. -/
structure BatchEnvelope (α ρ : Type) where
  results : List α
  projectRanking : Option ρ

/-- Dataflow of `handleSubmit`: start the side task only for multi-file
batches, run the per-item operation over all files, await both, and return
the envelope; an item failure rejects the whole run (the `catch` at
FileUpload.tsx line 225), while a side-task failure only blanks the
ranking field.  The side task is awaited (line 221) before the envelope is
produced, so the envelope is a function of its outcome. -/
def runBatch {ι α ε ε' ρ : Type} (files : List ι) (processItem : ι → ℕ → Except ε α)
    (sideTask : Except ε' ρ) : Except ε (BatchEnvelope α ρ) :=
  let ranking : Option ρ := if sideTaskStarted files then catchToOption sideTask else none
  match collectAll (mapIdxF (fun i x => processItem x i) 0 files) with
  | Except.ok results => Except.ok { results := results, projectRanking := ranking }
  | Except.error e => Except.error e

/-! ## OllamaService (src/frontend/lib/ollama.ts) -/
/-- The fixed built-in skill list of `extractSkills` (lines 68-74). -/
def commonTechSkills : List String :=
  [ "python", "java", "javascript", "react", "node.js", "sql", "aws",
    "docker", "kubernetes", "git", "machine learning", "data analysis",
    "fastapi", "django", "flask", "mongodb", "postgresql", "redis",
    "typescript", "vue.js", "angular", "ci/cd", "jenkins", "terraform",
    "agile", "scrum", "project management", "leadership", "communication" ]

/-- `text.toLowerCase()`, character by character. -/
def lowerStr (s : String) : String :=
  String.mk (s.data.map Char.toLower)

/-- `textLower.includes(skill)`: substring containment. -/
def containsSubstr (s pat : String) : Bool :=
  s.data.tails.any (fun t => pat.data.isPrefixOf t)

/-- `extractSkills(text)` (lines 67-86): the skills of the fixed list that
occur in the lowercased text, in list order. -/
def extractSkills (text : String) : List String :=
  commonTechSkills.filter (fun skill => containsSubstr (lowerStr text) skill)

/-- Longest prefix of the character list that ends at the last occurrence
of `c`, if `c` occurs at all (the greedy `[\s\S]*` of the regex). -/
def upToLast (c : Char) : List Char → Option (List Char)
  | [] => none
  | x :: xs =>
    match upToLast c xs with
    | some r => some (x :: r)
    | none => if x = c then some [x] else none

/-- One alternative of the regex at the current position: a brace-delimited
or bracket-delimited greedy span. -/
def matchAt (l : List Char) : Option (List Char) :=
  match l with
  | '\x7b' :: xs => (upToLast '\x7d' xs).map (fun r => '\x7b' :: r)
  | '[' :: xs => (upToLast ']' xs).map (fun r => '[' :: r)
  | _ => none

/-- Leftmost match of the regex: scan positions left to right. -/
def jsonExtractAux : List Char → Option (List Char)
  | [] => none
  | x :: xs =>
    match matchAt (x :: xs) with
    | some m => some m
    | none => jsonExtractAux xs

/-- `text.match(...)` of `parseJSON` (line 94): the leftmost greedy match of
a brace-delimited or bracket-delimited span, or `none`. -/
def jsonExtract (s : String) : Option String :=
  (jsonExtractAux s.data).map (fun l => String.mk l)

/-- The shape `JSON.parse` is expected to produce in `analyzeResumeMatch`
(lines 147-157). -/
structure LLMAnalysis where
  overall_score : Int
  ats_score : Int
  strengths : List String
  gaps : List String

/-- Match analysis returned by `analyzeResumeMatch` (interface lines 8-15). -/
structure MatchAnalysis where
  overall_score : Int
  ats_score : Int
  matched_skills : List String
  missing_skills : List String
  strengths : List String
  gaps : List String

/-- `parseJSON(text, fallback)` (lines 91-102): extract a JSON-looking span
and parse it; any failure (no match, or `JSON.parse` throwing, modelled by
the host parser `tryParse` returning `none`) yields the fallback. -/
def parseJSON {β : Type} (tryParse : String → Option β) (text : String) (fallback : β) : β :=
  match jsonExtract text with
  | some m =>
    match tryParse m with
    | some v => v
    | none => fallback
  | none => fallback

/-- `analyzeResumeMatch` (lines 107-170) after the LLM `response` string has
been received: skill matching is computed locally from the fixed list, the
scores and strengths/gaps come from parsing the response with fallback
`{overall_score: 70, ats_score: 65, strengths: [], gaps: []}`. -/
def analyzeResumeMatch (tryParse : String → Option LLMAnalysis)
    (resumeText jobDescription response : String) : MatchAnalysis :=
  let jdSkills := extractSkills jobDescription
  let resumeSkills := extractSkills resumeText
  let matchedSkills := resumeSkills.filter (fun s => jdSkills.contains s)
  let missingSkills := jdSkills.filter (fun s => !(resumeSkills.contains s))
  let analysis := parseJSON tryParse response
    { overall_score := 70, ats_score := 65, strengths := [], gaps := [] }
  { overall_score := analysis.overall_score
    ats_score := analysis.ats_score
    matched_skills := matchedSkills
    missing_skills := missingSkills
    strengths := analysis.strengths
    gaps := analysis.gaps }

/-! ## parallelLimit (src/frontend/lib/concurrency.ts, lines 46-56) as a
scheduler-adversary machine.

`parallelLimit(items, limit, fn)` creates one `Semaphore(limit)` and maps
`semaphore.execute(() => fn(item, index))` over the items, collecting the
promises with `Promise.all`.  Each invocation of `fn` is modelled as a
`Spec`: a non-empty sequence of awaited phases (each phase labelled with
the number of client-side LLM calls in flight while it runs) together with
the settled outcome of the invocation.  The synchronous `items.map` loop
(which performs all the acquires in index order) is `plInit`; after that
the event loop (an adversary) repeatedly picks any in-flight task and
completes its current phase (`plStep`).  When a task's last phase
completes, `execute`'s `finally` releases the permit, which hands it to
the longest-waiting queued task.  Progress emissions model
`setCurrentFileIndex(i + 1)` (FileUpload.tsx line 156), the first
synchronous action of `fn` for item `i`. -/
/-- Per-invocation behaviour: the list of awaited phases (labelled with
their concurrent LLM-call count) and the settled outcome. -/
abbrev Spec (ε α : Type) := List Nat × Except ε α

/-- Status of one mapped item: waiting on the semaphore queue, running with
the given remaining phases, or settled.  The settled outcome is carried
through every status. -/
inductive TStatus (ε α : Type) where
  | queued (phases : List Nat) (r : Except ε α)
  | running (phases : List Nat) (r : Except ε α)
  | finished (r : Except ε α)

structure PLState (ε α : Type) where
  sem : SemState
  tasks : List (TStatus ε α)
  emits : List Nat

/-- The synchronous `items.map` loop of `parallelLimit`: task `i` calls
`acquire()`; if granted it starts running (emitting its progress update),
otherwise it joins the semaphore's FIFO queue. -/
def plInitAux {ε α : Type} : List (Spec ε α) → Nat → PLState ε α → PLState ε α
  | [], _, st => st
  | sp :: rest, i, st =>
    let r := semAcquire i st.sem
    let st' : PLState ε α :=
      if r.2 then
        { sem := r.1, tasks := st.tasks ++ [TStatus.running sp.1 sp.2],
          emits := st.emits ++ [i + 1] }
      else
        { sem := r.1, tasks := st.tasks ++ [TStatus.queued sp.1 sp.2],
          emits := st.emits }
    plInitAux rest (i + 1) st'

def plInit {ε α : Type} (specs : List (Spec ε α)) (limit : Int) : PLState ε α :=
  plInitAux specs 0 { sem := mkSemaphore limit, tasks := [], emits := [] }

/-- One scheduler step: the event loop resumes task `i`, completing its
current awaited phase.  If that was the last phase the task settles and
`execute`'s `finally` calls `release()`, which (per the source) hands the
permit directly to the head of the wait queue, whose invocation then
starts (emitting its progress update). -/
def plStep {ε α : Type} (st : PLState ε α) (i : Nat) : Option (PLState ε α) :=
  match st.tasks[i]? with
  | some (TStatus.running phases r) =>
    if 2 ≤ phases.length then
      some { st with tasks := st.tasks.set i (TStatus.running phases.tail r) }
    else
      let ts1 := st.tasks.set i (TStatus.finished r)
      let rel := semRelease st.sem
      match rel.2 with
      | none => some { sem := rel.1, tasks := ts1, emits := st.emits }
      | some j =>
        match ts1[j]? with
        | some (TStatus.queued ph rj) =>
          some { sem := rel.1, tasks := ts1.set j (TStatus.running ph rj),
                 emits := st.emits ++ [j + 1] }
        | _ => none
  | _ => none

/-- States reachable from the start of a `parallelLimit(items, limit, fn)`
run, under any scheduling of the in-flight tasks. -/
inductive PLReach {ε α : Type} (specs : List (Spec ε α)) (limit : Int) : PLState ε α → Prop where
  | init : PLReach specs limit (plInit specs limit)
  | step {st st' : PLState ε α} (i : Nat) :
      PLReach specs limit st → plStep st i = some st' → PLReach specs limit st'

/-- Run a concrete schedule (list of scheduler picks); invalid picks are
skipped, so the result is always reachable. -/
def plRun {ε α : Type} (st : PLState ε α) : List Nat → PLState ε α
  | [] => st
  | i :: rest =>
    match plStep st i with
    | some st' => plRun st' rest
    | none => plRun st rest

/-! ### Observations on machine states -/
def statusResult {ε α : Type} : TStatus ε α → Except ε α
  | TStatus.queued _ r => r
  | TStatus.running _ r => r
  | TStatus.finished r => r

def isRunningB {ε α : Type} : TStatus ε α → Bool
  | TStatus.running _ _ => true
  | _ => false

def isFinishedB {ε α : Type} : TStatus ε α → Bool
  | TStatus.finished _ => true
  | _ => false

/-- Number of invocations of `fn` currently in flight. -/
def runningCount {ε α : Type} (st : PLState ε α) : Nat :=
  st.tasks.countP isRunningB

/-- LLM calls currently executing in a task: the label of its current
phase. -/
def headWeight {ε α : Type} : TStatus ε α → Nat
  | TStatus.running (p :: _) _ => p
  | _ => 0

/-- Total number of client-side LLM calls executing concurrently. -/
def llmCount {ε α : Type} (st : PLState ε α) : Nat :=
  (st.tasks.map headWeight).sum

/-- The value of the promise returned by `parallelLimit` once every
invocation has settled: `Promise.all` of the per-item outcomes. -/
def plAll {ε α : Type} (st : PLState ε α) : Except ε (List α) :=
  collectAll (st.tasks.map statusResult)

/-! ### Invariants of the `parallelLimit` machine.

`s` is the number of started tasks.  Because the synchronous map loop
acquires in index order and the wait queue is FIFO, the started tasks are
exactly the indices below `s`, the wait queue is exactly `[s, ..., N-1]`,
and the progress emissions so far are exactly `[1, ..., s]`. -/
/-- Loop invariant of the synchronous `items.map` acquire loop. -/
structure InitInv {ε α : Type} (limit : Int) (processed : List (Spec ε α))
    (st : PLState ε α) (s : Nat) : Prop where
  len_eq : st.tasks.length = processed.length
  s_le : s ≤ processed.length
  res_eq : st.tasks.map statusResult = processed.map Prod.snd
  queue_eq : st.sem.tasks = List.range' s (processed.length - s)
  emits_eq : st.emits = List.range' 1 s
  started : ∀ i, i < s →
      st.tasks[i]? = (processed[i]?).map (fun sp => TStatus.running sp.1 sp.2)
  waiting : ∀ i, s ≤ i →
      st.tasks[i]? = (processed[i]?).map (fun sp => TStatus.queued sp.1 sp.2)
  rc_eq : runningCount st = s
  permits_eq : st.sem.permits = limit - (s : Int)
  permits_nonneg : 0 ≤ st.sem.permits
  full_permits : s < processed.length → st.sem.permits = 0

/-- Run invariant, preserved by every scheduler step: `s` started tasks
form the prefix of indices, the wait queue is exactly the remaining
indices in order, emissions are exactly `[1..s]`, running phases are
suffixes of the task's phase list, and permits balance the running
count. -/
structure PLInv {ε α : Type} (specs : List (Spec ε α)) (limit : Int)
    (st : PLState ε α) (s : Nat) : Prop where
  len_eq : st.tasks.length = specs.length
  s_le : s ≤ specs.length
  res_eq : st.tasks.map statusResult = specs.map Prod.snd
  queue_eq : st.sem.tasks = List.range' s (specs.length - s)
  emits_eq : st.emits = List.range' 1 s
  not_started : ∀ i : Nat, s ≤ i →
      st.tasks[i]? = (specs[i]?).map (fun sp => TStatus.queued sp.1 sp.2)
  no_queued_lt : ∀ (i : Nat) (ph : List Nat) (r : Except ε α),
      st.tasks[i]? = some (TStatus.queued ph r) → s ≤ i
  run_suffix : ∀ (i : Nat) (ph : List Nat) (r : Except ε α),
      st.tasks[i]? = some (TStatus.running ph r) →
      ∃ sp : Spec ε α, specs[i]? = some sp ∧ ph <:+ sp.1
  permits_eq : st.sem.permits + (runningCount st : Int) = limit
  permits_nonneg : 0 ≤ st.sem.permits
  queue_permits : st.sem.tasks ≠ [] → st.sem.permits = 0

/-! ## Concrete instances used by counterexamples and witnesses -/
/-- The per-item pipeline of `handleSubmit` (FileUpload.tsx lines 154-204):
phase 1 `api.processResume` (no client-side LLM call), phase 2
`ollamaService.analyzeResumeMatch` (1 LLM call), phase 3 the `Promise.all`
of `generateImprovements` and `compareRequirements` (2 concurrent LLM
calls). -/
def fuPhases : List Nat := [0, 1, 2]

def fuSpecs (n : Nat) : List (Spec String Unit) :=
  List.replicate n (fuPhases, Except.ok ())

/-- Schedule for a batch of 5 resumes under ceiling 2: items 0 and 1 both
finish `processResume` and `analyzeResumeMatch` and are simultaneously in
their enrichment fan-out. -/
def stC1 : PLState String Unit := plRun (plInit (fuSpecs 5) 2) [0, 1, 0, 1]

def failOutcome {α ε : Type} (k : Nat) (res : Nat → α) (e : ε) (j : Nat) : Except ε α :=
  if j = k then Except.error e else Except.ok (res j)

/-- A batch of `n` single-phase items where exactly item `k` fails. -/
def specsFail {α ε : Type} (n k : Nat) (res : Nat → α) (e : ε) : List (Spec ε α) :=
  (List.range n).map (fun j => ([0], failOutcome k res e j))

def specsC2 : List (Spec String Nat) := [([0], Except.error "boom"), ([0], Except.ok 1)]

def stC2 : PLState String Nat := plRun (plInit specsC2 2) [0, 1]

def stC2w : PLState String Nat :=
  plRun (plInit (specsFail 2 0 (fun j => j * 10) "boom") 2) [0, 1]

def specsC4 : List (Spec Unit Nat) :=
  mapIdxF (fun i x => (((fun _ _ => ([0] : List Nat)) : Nat → Nat → List Nat) i x,
    Except.ok (((fun i x => x + i) : Nat → Nat → Nat) i x))) 0 [10, 20, 30]

def stC4 : PLState Unit Nat := plRun (plInit specsC4 2) [0, 1, 2]

def specsC8 : List (Spec String Nat) := [([0], Except.error "fail"), ([0, 0], Except.ok 5)]

def stC8 : PLState String Nat := plRun (plInit specsC8 1) [0, 1, 1]

def specsC9 : List (Spec String Nat) := [([0, 1, 2], Except.ok 0)]

def stC9 : PLState String Nat := plRun (plInit specsC9 2) [0, 0, 0]

def respC10 : String := "The resume scores seventy out of one hundred."

def resumeC10 : String := "Experienced in Python, SQL and Docker."

def jdC10 : String := "Looking for python and java skills."

def stC3 : SemRun :=
  { sem := { permits := 1, tasks := [] }, holders := 0, enqueued := [1], dequeued := [1] }

theorem semInit_inv (capacity : Int) (hcap : 0 ≤ capacity) : SemInv capacity (semInit capacity) := by
  refine ⟨by simp [semInit, mkSemaphore], by simpa [semInit, mkSemaphore] using hcap, ?_, by simp [semInit, mkSemaphore]⟩
  intro h
  simp [semInit, mkSemaphore] at h

theorem semStep_inv {capacity : Int} {st st' : SemRun} {op : SemOp}
    (hinv : SemInv capacity st) (hstep : semStep st op = some st') : SemInv capacity st' := by
  obtain ⟨hsum, hpos, hqueue, hfifo⟩ := hinv
  cases op with
  | acq id =>
    by_cases hp : 0 < st.sem.permits
    · simp only [semStep, semAcquire, hp, if_true] at hstep
      cases hstep
      refine ⟨?_, ?_, ?_, ?_⟩ <;> dsimp only
      · push_cast
        omega
      · omega
      · intro h; exact absurd (hqueue h) (by omega)
      · simpa using hfifo
    · simp only [semStep, semAcquire, hp, if_false] at hstep
      cases hstep
      refine ⟨?_, ?_, ?_, ?_⟩ <;> dsimp only
      · exact hsum
      · exact hpos
      · intro _; omega
      · simp [hfifo, List.append_assoc]
  | rel =>
    by_cases hh : st.holders = 0
    · simp [semStep, hh] at hstep
    · cases htasks : st.sem.tasks with
      | nil =>
        simp only [semStep, hh, if_false, semRelease, htasks] at hstep
        cases hstep
        refine ⟨?_, ?_, ?_, ?_⟩ <;> dsimp only
        · omega
        · omega
        · intro h; simp at h
        · simpa [htasks] using hfifo
      | cons t rest =>
        have hp0 : st.sem.permits ≤ 0 := hqueue (by simp [htasks])
        simp only [semStep, hh, if_false, semRelease, htasks] at hstep
        cases hstep
        refine ⟨?_, ?_, ?_, ?_⟩ <;> dsimp only
        · push_cast at hsum ⊢; omega
        · omega
        · intro _; omega
        · rw [hfifo, htasks]; simp

theorem semFoldl_none (ops : List SemOp) :
    List.foldl (fun acc op => acc.bind (fun st => semStep st op)) none ops = none := by
  induction ops with
  | nil => rfl
  | cons _ _ ih => simpa using ih

theorem semRunTrace_aux {capacity : Int} (ops : List SemOp) :
    ∀ st0 st : SemRun, SemInv capacity st0 →
      ops.foldl (fun acc op => acc.bind (fun st => semStep st op)) (some st0) = some st →
      SemInv capacity st := by
  induction ops with
  | nil =>
    intro st0 st h0 hfold
    simp at hfold
    exact hfold ▸ h0
  | cons op rest ih =>
    intro st0 st h0 hfold
    simp only [List.foldl_cons, Option.some_bind] at hfold
    cases hs : semStep st0 op with
    | none =>
      rw [hs] at hfold
      rw [semFoldl_none] at hfold
      exact Option.noConfusion hfold
    | some st1 =>
      rw [hs] at hfold
      exact ih st1 st (semStep_inv h0 hs) hfold

theorem plRun_reach {ε α : Type} {specs : List (Spec ε α)} {limit : Int} {st : PLState ε α}
    (h : PLReach specs limit st) (sched : List Nat) : PLReach specs limit (plRun st sched) := by
  induction sched generalizing st with
  | nil => exact h
  | cons i rest ih =>
    rw [plRun]
    cases hs : plStep st i with
    | none => exact ih h
    | some st' => exact ih (PLReach.step i h hs)

/-! ### List helper lemmas -/
theorem lt_of_getElem?_some {β : Type} {l : List β} {i : Nat} {a : β}
    (h : l[i]? = some a) : i < l.length := by
  by_contra hle
  rw [List.getElem?_eq_none (by omega)] at h
  exact Option.noConfusion h

theorem set_same {β : Type} {l : List β} {i : Nat} {a : β}
    (h : l[i]? = some a) : l.set i a = l := by
  induction l generalizing i with
  | nil => simp at h
  | cons x xs ih =>
    cases i with
    | zero => simp_all
    | succ n =>
      simp only [List.getElem?_cons_succ] at h
      simp [ih h]

theorem map_set_same {β γ : Type} (f : β → γ) {l : List β} {i : Nat} {a : β} (b : β)
    (h : l[i]? = some a) (hfb : f b = f a) : (l.set i b).map f = l.map f := by
  rw [List.map_set, hfb]
  exact set_same (by rw [List.getElem?_map, h]; rfl)

theorem countP_set_add {β : Type} (p : β → Bool) {l : List β} {i : Nat} {a : β} (b : β)
    (h : l[i]? = some a) :
    (l.set i b).countP p + (if p a then 1 else 0) = l.countP p + (if p b then 1 else 0) := by
  induction l generalizing i with
  | nil => simp at h
  | cons x xs ih =>
    cases i with
    | zero =>
      simp only [List.getElem?_cons_zero, Option.some_inj] at h
      subst h
      simp only [List.set_cons_zero, List.countP_cons]
      omega
    | succ n =>
      simp only [List.getElem?_cons_succ] at h
      simp only [List.set_cons_succ, List.countP_cons]
      have := ih h
      omega

theorem range'_succ_right (s n : Nat) :
    List.range' s (n + 1) = List.range' s n ++ [s + n] := by
  induction n generalizing s with
  | zero => simp [List.range']
  | succ m ih =>
    have h1 : List.range' s (m + 1 + 1) = s :: List.range' (s + 1) (m + 1) := rfl
    have h2 : List.range' s (m + 1) = s :: List.range' (s + 1) m := rfl
    rw [h1, ih (s + 1), h2]
    simp
    omega

theorem range'_one_succ (n : Nat) :
    List.range' 1 (n + 1) = List.range' 1 n ++ [n + 1] := by
  rw [range'_succ_right]
  simp [Nat.add_comm]

theorem plInitAux_inv {ε α : Type} (limit : Int) (rem : List (Spec ε α)) :
    ∀ (processed : List (Spec ε α)) (st : PLState ε α) (s : Nat),
      InitInv limit processed st s →
      ∃ s', InitInv limit (processed ++ rem) (plInitAux rem processed.length st) s' := by
  induction rem with
  | nil =>
    intro processed st s h
    rw [plInitAux]
    exact ⟨s, by simpa using h⟩
  | cons sp rest ih =>
    intro processed st s h
    obtain ⟨hlen, hsle, hres, hqueue, hemits, hstart, hwait, hrc, hpe, hpn, hfp⟩ := h
    rw [plInitAux]
    by_cases hp : 0 < st.sem.permits
    · -- permit available: the new task starts immediately
      have hseq : s = processed.length := by
        rcases Nat.eq_or_lt_of_le hsle with h' | h'
        · exact h'
        · exact absurd (hfp h') (by omega)
      have hq : st.sem.tasks = [] := by
        rw [hqueue, hseq, Nat.sub_self]
        rfl
      simp only [semAcquire, hp, if_true]
      have step : InitInv limit (processed ++ [sp])
          { sem := { permits := st.sem.permits - 1, tasks := st.sem.tasks },
            tasks := st.tasks ++ [TStatus.running sp.1 sp.2],
            emits := st.emits ++ [processed.length + 1] } (s + 1) := by
        refine ⟨?_, ?_, ?_, ?_, ?_, ?_, ?_, ?_, ?_, ?_, ?_⟩ <;> dsimp only
        · simp [hlen]
        · simp; omega
        · simp [hres, statusResult]
        · rw [hq]
          simp [hseq]
        · rw [hemits, hseq, range'_one_succ]
        · intro i hi
          rcases Nat.lt_or_ge i s with hlt | hge
          · rw [List.getElem?_append_left (by omega), List.getElem?_append_left (by omega)]
            exact hstart i hlt
          · have hie : i = processed.length := by omega
            subst hie
            rw [← hlen, List.getElem?_concat_length, hlen, List.getElem?_concat_length]
            rfl
        · intro i hi
          have h1 : st.tasks.length ≤ i := by omega
          have h2 : processed.length ≤ i := by omega
          rw [@List.getElem?_eq_none _ (st.tasks ++ [TStatus.running sp.1 sp.2]) i (by simp; omega),
            @List.getElem?_eq_none _ (processed ++ [sp]) i (by simp; omega)]
          rfl
        · unfold runningCount at hrc ⊢
          dsimp only
          rw [List.countP_append, hrc]
          rfl
        · push_cast
          omega
        · omega
        · intro hlt
          have : (processed ++ [sp]).length = processed.length + 1 := by simp
          omega
      obtain ⟨s', h'⟩ := ih (processed ++ [sp]) _ (s + 1) step
      refine ⟨s', ?_⟩
      have harr : (processed ++ [sp]) ++ rest = processed ++ sp :: rest := by simp
      have hlen2 : (processed ++ [sp]).length = processed.length + 1 := by simp
      rw [harr, hlen2] at h'
      exact h'
    · -- no permit: the new task joins the wait queue
      have hp0 : st.sem.permits = 0 := by omega
      simp only [semAcquire, hp, if_false]
      have step : InitInv limit (processed ++ [sp])
          { sem := { permits := st.sem.permits, tasks := st.sem.tasks ++ [processed.length] },
            tasks := st.tasks ++ [TStatus.queued sp.1 sp.2],
            emits := st.emits } s := by
        refine ⟨?_, ?_, ?_, ?_, ?_, ?_, ?_, ?_, ?_, ?_, ?_⟩ <;> dsimp only
        · simp [hlen]
        · simp; omega
        · simp [hres, statusResult]
        · rw [hqueue]
          have harith : (processed ++ [sp]).length - s = (processed.length - s) + 1 := by
            simp; omega
          rw [harith, range'_succ_right]
          have : s + (processed.length - s) = processed.length := by omega
          rw [this]
        · exact hemits
        · intro i hi
          rw [List.getElem?_append_left (by omega), List.getElem?_append_left (by omega)]
          exact hstart i hi
        · intro i hi
          rcases Nat.lt_or_ge i processed.length with hlt | hge
          · rw [List.getElem?_append_left (by omega), List.getElem?_append_left (by omega)]
            exact hwait i hi
          · rcases Nat.eq_or_lt_of_le hge with hie | hgt
            · subst hie
              rw [← hlen, List.getElem?_concat_length, hlen, List.getElem?_concat_length]
              rfl
            · rw [@List.getElem?_eq_none _ (st.tasks ++ [TStatus.queued sp.1 sp.2]) i (by simp; omega),
                @List.getElem?_eq_none _ (processed ++ [sp]) i (by simp; omega)]
              rfl
        · unfold runningCount at hrc ⊢
          dsimp only
          rw [List.countP_append, hrc]
          rfl
        · exact hpe
        · exact hpn
        · intro _
          exact hp0
      obtain ⟨s', h'⟩ := ih (processed ++ [sp]) _ s step
      refine ⟨s', ?_⟩
      have harr : (processed ++ [sp]) ++ rest = processed ++ sp :: rest := by simp
      have hlen2 : (processed ++ [sp]).length = processed.length + 1 := by simp
      rw [harr, hlen2] at h'
      exact h'

theorem initInv_plInv {ε α : Type} {specs : List (Spec ε α)} {limit : Int}
    {st : PLState ε α} {s : Nat} (h : InitInv limit specs st s) :
    PLInv specs limit st s := by
  obtain ⟨hlen, hsle, hres, hqueue, hemits, hstart, hwait, hrc, hpe, hpn, hfp⟩ := h
  refine ⟨hlen, hsle, hres, hqueue, hemits, hwait, ?_, ?_, ?_, hpn, ?_⟩
  · intro i ph r hi
    by_contra hlt
    have := hstart i (by omega)
    rw [hi] at this
    cases hsp : specs[i]? with
    | none => rw [hsp] at this; exact Option.noConfusion this
    | some sp =>
      rw [hsp] at this
      simp only [Option.map_some', Option.some_inj] at this
      exact TStatus.noConfusion this
  · intro i ph r hi
    rcases Nat.lt_or_ge i s with hlt | hge
    · have := hstart i hlt
      rw [hi] at this
      cases hsp : specs[i]? with
      | none => rw [hsp] at this; exact Option.noConfusion this
      | some sp =>
        rw [hsp] at this
        simp only [Option.map_some', Option.some_inj] at this
        injection this with h1 h2
        subst h1
        exact ⟨sp, rfl, List.suffix_refl _⟩
    · have := hwait i hge
      rw [hi] at this
      cases hsp : specs[i]? with
      | none => rw [hsp] at this; exact Option.noConfusion this
      | some sp =>
        rw [hsp] at this
        simp only [Option.map_some', Option.some_inj] at this
        exact TStatus.noConfusion this
  · rw [hrc, hpe]
    omega
  · intro hne
    have : s < specs.length := by
      by_contra hge
      have hz : specs.length - s = 0 := by omega
      rw [hqueue, hz] at hne
      exact hne rfl
    exact hfp this

theorem plStep_inv {ε α : Type} {specs : List (Spec ε α)} {limit : Int}
    {st st' : PLState ε α} {s i : Nat}
    (hinv : PLInv specs limit st s) (hstep : plStep st i = some st') :
    ∃ s', PLInv specs limit st' s' := by
  obtain ⟨hlen, hsle, hres, hqueue, hemits, hns, hnq, hrs, hpe, hpn, hqp⟩ := hinv
  unfold plStep at hstep
  split at hstep
  next phases r hti =>
      have hil : i < st.tasks.length := lt_of_getElem?_some hti
      have his : i < s := by
        by_contra hge
        have := hns i (by omega)
        rw [hti] at this
        cases hsp : specs[i]? with
        | none => rw [hsp] at this; exact Option.noConfusion this
        | some sp =>
          rw [hsp] at this
          simp only [Option.map_some', Option.some_inj] at this
          exact TStatus.noConfusion this
      obtain ⟨spI, hspI, hsufI⟩ := hrs i phases r hti
      by_cases h2 : 2 ≤ phases.length
      · -- an intermediate phase completes; the task keeps running
        rw [if_pos h2] at hstep
        cases hstep
        refine ⟨s, ?_, ?_, ?_, ?_, ?_, ?_, ?_, ?_, ?_, ?_, ?_⟩ <;> dsimp only
        · simp [hlen]
        · exact hsle
        · rw [map_set_same statusResult (TStatus.running phases.tail r) hti rfl]
          exact hres
        · exact hqueue
        · exact hemits
        · intro i' hi'
          rw [List.getElem?_set_ne (by omega)]
          exact hns i' hi'
        · intro i' ph' r' h'
          by_cases hii : i = i'
          · subst hii
            rw [List.getElem?_set_self hil] at h'
            simp only [Option.some_inj] at h'
            exact TStatus.noConfusion h'
          · rw [List.getElem?_set_ne hii] at h'
            exact hnq i' ph' r' h'
        · intro i' ph' r' h'
          by_cases hii : i = i'
          · subst hii
            rw [List.getElem?_set_self hil] at h'
            simp only [Option.some_inj] at h'
            cases h'
            exact ⟨spI, hspI, (List.tail_suffix phases).trans hsufI⟩
          · rw [List.getElem?_set_ne hii] at h'
            exact hrs i' ph' r' h'
        · unfold runningCount at hpe ⊢
          dsimp only
          have hc := countP_set_add (@isRunningB ε α)
            (TStatus.running phases.tail r) hti
          simp [isRunningB] at hc
          omega
        · exact hpn
        · exact hqp
      · -- the last phase completes: the task settles and `finally` releases
        rw [if_neg h2] at hstep
        have hc1 := countP_set_add (@isRunningB ε α) (TStatus.finished r) hti
        simp [isRunningB] at hc1
        rcases Nat.eq_or_lt_of_le hsle with hseq | hslt
        · -- the wait queue is empty: the permit goes back to the pool
          have hq : st.sem.tasks = [] := by
            rw [hqueue, ← hseq, Nat.sub_self]
            rfl
          simp only [semRelease, hq] at hstep
          cases hstep
          refine ⟨s, ?_, ?_, ?_, ?_, ?_, ?_, ?_, ?_, ?_, ?_, ?_⟩ <;> dsimp only
          · simp [hlen]
          · exact hsle
          · rw [map_set_same statusResult (TStatus.finished r) hti rfl]
            exact hres
          · rw [hseq, Nat.sub_self]
            rfl
          · exact hemits
          · intro i' hi'
            rw [List.getElem?_set_ne (by omega)]
            exact hns i' hi'
          · intro i' ph' r' h'
            by_cases hii : i = i'
            · subst hii
              rw [List.getElem?_set_self hil] at h'
              simp only [Option.some_inj] at h'
              exact TStatus.noConfusion h'
            · rw [List.getElem?_set_ne hii] at h'
              exact hnq i' ph' r' h'
          · intro i' ph' r' h'
            by_cases hii : i = i'
            · subst hii
              rw [List.getElem?_set_self hil] at h'
              simp only [Option.some_inj] at h'
              exact TStatus.noConfusion h'
            · rw [List.getElem?_set_ne hii] at h'
              exact hrs i' ph' r' h'
          · unfold runningCount at hpe ⊢
            dsimp only
            omega
          · omega
          · intro h'
            exact absurd rfl h'
        · -- the wait queue head (task `s`) receives the permit and starts
          have hq : st.sem.tasks = s :: List.range' (s + 1) (specs.length - (s + 1)) := by
            rw [hqueue]
            have harith : specs.length - s = (specs.length - (s + 1)) + 1 := by omega
            rw [harith]
            rfl
          obtain ⟨spS, hspS⟩ : ∃ sp, specs[s]? = some sp := by
            cases hsp : specs[s]? with
            | none =>
              rw [List.getElem?_eq_none_iff] at hsp
              omega
            | some sp => exact ⟨sp, rfl⟩
          have hts1 : (st.tasks.set i (TStatus.finished r))[s]? =
              some (TStatus.queued spS.1 spS.2) := by
            rw [List.getElem?_set_ne (by omega), hns s (le_refl s), hspS]
            rfl
          simp only [semRelease, hq, hts1] at hstep
          cases hstep
          have hsl2 : s < st.tasks.length := by omega
          have hc2 := countP_set_add (@isRunningB ε α)
            (TStatus.running spS.1 spS.2) hts1
          simp [isRunningB] at hc2
          refine ⟨s + 1, ?_, ?_, ?_, ?_, ?_, ?_, ?_, ?_, ?_, ?_, ?_⟩ <;> dsimp only
          · simp [hlen]
          · omega
          · rw [map_set_same statusResult (TStatus.running spS.1 spS.2) hts1 rfl,
              map_set_same statusResult (TStatus.finished r) hti rfl]
            exact hres
          · rw [hemits, range'_one_succ]
          · intro i' hi'
            rw [List.getElem?_set_ne (by omega), List.getElem?_set_ne (by omega)]
            exact hns i' (by omega)
          · intro i' ph' r' h'
            by_cases his' : s = i'
            · subst his'
              rw [List.getElem?_set_self (by simpa using hsl2)] at h'
              simp only [Option.some_inj] at h'
              exact TStatus.noConfusion h'
            · rw [List.getElem?_set_ne his'] at h'
              by_cases hii : i = i'
              · subst hii
                rw [List.getElem?_set_self hil] at h'
                simp only [Option.some_inj] at h'
                exact TStatus.noConfusion h'
              · rw [List.getElem?_set_ne hii] at h'
                have := hnq i' ph' r' h'
                omega
          · intro i' ph' r' h'
            by_cases his' : s = i'
            · subst his'
              rw [List.getElem?_set_self (by simpa using hsl2)] at h'
              simp only [Option.some_inj] at h'
              cases h'
              exact ⟨spS, hspS, List.suffix_refl _⟩
            · rw [List.getElem?_set_ne his'] at h'
              by_cases hii : i = i'
              · subst hii
                rw [List.getElem?_set_self hil] at h'
                simp only [Option.some_inj] at h'
                exact TStatus.noConfusion h'
              · rw [List.getElem?_set_ne hii] at h'
                exact hrs i' ph' r' h'
          · unfold runningCount at hpe ⊢
            dsimp only
            omega
          · have := hqp (by rw [hq]; exact List.cons_ne_nil _ _)
            omega
          · intro _
            have := hqp (by rw [hq]; exact List.cons_ne_nil _ _)
            omega
  next x hne => exact Option.noConfusion hstep

theorem plInit_initInv {ε α : Type} (specs : List (Spec ε α)) (limit : Int) (hlim : 0 ≤ limit) :
    ∃ s, InitInv limit specs (plInit specs limit) s := by
  have base : InitInv limit ([] : List (Spec ε α))
      { sem := mkSemaphore limit, tasks := [], emits := [] } 0 := by
    refine ⟨rfl, le_refl 0, rfl, rfl, rfl, ?_, ?_, rfl, ?_, ?_, ?_⟩
    · intro i hi
      omega
    · intro i _
      rfl
    · simp [mkSemaphore]
    · simpa [mkSemaphore] using hlim
    · intro h
      simp at h
  have := plInitAux_inv limit specs [] _ 0 base
  simpa [plInit] using this

/-- Every reachable state of a `parallelLimit` run satisfies the
invariant. -/
theorem plReach_inv {ε α : Type} {specs : List (Spec ε α)} {limit : Int}
    (hlim : 0 ≤ limit) {st : PLState ε α} (h : PLReach specs limit st) :
    ∃ s, PLInv specs limit st s := by
  induction h with
  | init =>
    obtain ⟨s, h0⟩ := plInit_initInv specs limit hlim
    exact ⟨s, initInv_plInv h0⟩
  | step i hr hs ih =>
    obtain ⟨s, hi⟩ := ih
    exact plStep_inv hi hs

/-- In a completed run (every task finished) the started count is the full
batch, the wait queue is empty and nothing is running. -/
theorem plInv_complete {ε α : Type} {specs : List (Spec ε α)} {limit : Int}
    {st : PLState ε α} {s : Nat} (hinv : PLInv specs limit st s)
    (hdone : st.tasks.countP isFinishedB = st.tasks.length) :
    s = specs.length ∧ st.sem.tasks = [] ∧ runningCount st = 0 := by
  have hall : ∀ t ∈ st.tasks, isFinishedB t := List.countP_eq_length.mp hdone
  have hseq : s = specs.length := by
    rcases Nat.eq_or_lt_of_le hinv.s_le with h' | h'
    · exact h'
    · exfalso
      obtain ⟨sp, hsp⟩ : ∃ sp : Spec ε α, specs[s]? = some sp := by
        cases hsp : specs[s]? with
        | none =>
          rw [List.getElem?_eq_none_iff] at hsp
          omega
        | some sp => exact ⟨sp, rfl⟩
      have := hinv.not_started s (le_refl s)
      rw [hsp] at this
      have hmem := List.getElem?_mem this
      have := hall _ hmem
      simp [isFinishedB] at this
  refine ⟨hseq, ?_, ?_⟩
  · rw [hinv.queue_eq, hseq, Nat.sub_self]
    rfl
  · unfold runningCount
    rw [List.countP_eq_zero]
    intro t ht
    have := hall t ht
    cases t <;> simp_all [isFinishedB, isRunningB]

/-- A list of statuses that are all finished and project to given outcomes
is exactly those outcomes wrapped in `finished`. -/
theorem finished_of_map {ε α : Type} :
    ∀ (ts : List (TStatus ε α)) (rs : List (Except ε α)),
      (∀ t ∈ ts, isFinishedB t) → ts.map statusResult = rs →
      ts = rs.map TStatus.finished := by
  intro ts
  induction ts with
  | nil =>
    intro rs _ hmap
    rw [← hmap]
    rfl
  | cons t ts ih =>
    intro rs hall hmap
    cases t with
    | queued ph r =>
      have := hall (TStatus.queued ph r) (List.mem_cons_self _ _)
      simp [isFinishedB] at this
    | running ph r =>
      have := hall (TStatus.running ph r) (List.mem_cons_self _ _)
      simp [isFinishedB] at this
    | finished r =>
      cases rs with
      | nil => exact absurd hmap (by simp)
      | cons r' rs' =>
        simp only [List.map_cons, List.cons.injEq] at hmap
        obtain ⟨h1, h2⟩ := hmap
        have := ih rs' (fun t ht => hall t (by simp [ht])) h2
        rw [List.map_cons, ← this, ← h1]
        rfl

theorem mapIdxF_map {α β γ : Type} (h : β → γ) (f : ℕ → α → β) :
    ∀ (n : ℕ) (l : List α), (mapIdxF f n l).map h = mapIdxF (fun i x => h (f i x)) n l := by
  intro n l
  induction l generalizing n with
  | nil => rfl
  | cons x xs ih => simp [mapIdxF, ih]

theorem mapIdxF_length {α β : Type} (f : ℕ → α → β) :
    ∀ (n : ℕ) (l : List α), (mapIdxF f n l).length = l.length := by
  intro n l
  induction l generalizing n with
  | nil => rfl
  | cons x xs ih => simp [mapIdxF, ih]

theorem collectAll_mapIdxF_ok {α β ε : Type} (g : ℕ → α → β) :
    ∀ (n : ℕ) (l : List α),
      @collectAll ε β (mapIdxF (fun i x => Except.ok (g i x)) n l) =
        Except.ok (mapIdxF g n l) := by
  intro n l
  induction l generalizing n with
  | nil => rfl
  | cons x xs ih => simp [mapIdxF, collectAll, ih]

/-- `Promise.all` rejects with the error of the single failed entry when
everything before it succeeded. -/
theorem collectAll_error_at {ε α : Type} :
    ∀ (rs : List (Except ε α)) (k : ℕ) (e : ε),
      rs[k]? = some (Except.error e) →
      (∀ j, j < k → ∃ a, rs[j]? = some (Except.ok a)) →
      collectAll rs = Except.error e := by
  intro rs
  induction rs with
  | nil =>
    intro k e hk _
    simp at hk
  | cons r rs' ih =>
    intro k e hk hbefore
    cases k with
    | zero =>
      simp only [List.getElem?_cons_zero, Option.some_inj] at hk
      subst hk
      rfl
    | succ k' =>
      obtain ⟨a, ha⟩ := hbefore 0 (by omega)
      simp only [List.getElem?_cons_zero, Option.some_inj] at ha
      subst ha
      simp only [List.getElem?_cons_succ] at hk
      have := ih k' e hk (fun j hj => by
        have := hbefore (j + 1) (by omega)
        simpa using this)
      simp [collectAll, this]

theorem length_range1 (a n : Nat) : (List.range' a n).length = n := by
  induction n generalizing a with
  | zero => rfl
  | succ m ih =>
    have : List.range' a (m + 1) = a :: List.range' (a + 1) m := rfl
    rw [this]
    simp [ih]

theorem pairwise_lt_range1 (a n : Nat) : (List.range' a n).Pairwise (· < ·) := by
  induction n generalizing a with
  | zero => exact List.Pairwise.nil
  | succ m ih =>
    have : List.range' a (m + 1) = a :: List.range' (a + 1) m := rfl
    rw [this]
    refine List.Pairwise.cons ?_ (ih (a + 1))
    intro b hb
    have := (List.mem_range'_1).mp hb
    omega

theorem sum_headWeight_le {ε α : Type} (l : List (TStatus ε α))
    (h : ∀ t ∈ l, headWeight t ≤ 2 * (if isRunningB t then 1 else 0)) :
    (l.map headWeight).sum ≤ 2 * l.countP isRunningB := by
  induction l with
  | nil => simp
  | cons t ts ih =>
    have h1 := h t (List.mem_cons_self _ _)
    have h2 := ih (fun t' ht' => h t' (by simp [ht']))
    simp only [List.map_cons, List.sum_cons, List.countP_cons]
    by_cases hr : isRunningB t <;> simp [hr] at h1 ⊢ <;> omega

/-! ## Claim theorems -/
/-- C3: for every capacity c ≥ 1 and every balanced trace of concurrent
`acquire()`/`release()` operations against one Semaphore, at most c
acquisitions are held simultaneously; in fact `available + holders`
always equals the capacity (so it never exceeds it) with `available ≥ 0`,
and waiters are granted strictly in FIFO arrival order: the ids granted
from the queue followed by the ids still queued are exactly the ids that
arrived, in order. -/
theorem semaphore_capacity_and_fifo (c : Int) (hc : 1 ≤ c) (ops : List SemOp) (st : SemRun)
    (h : semRunTrace c ops = some st) :
    (st.holders : Int) ≤ c ∧
    st.sem.permits + (st.holders : Int) = c ∧
    0 ≤ st.sem.permits ∧
    st.enqueued = st.dequeued ++ st.sem.tasks := by
  have hinv := @semRunTrace_aux c ops (semInit c) st (semInit_inv c (by omega)) h
  obtain ⟨h1, h2, _, h4⟩ := hinv
  exact ⟨by omega, h1, h2, h4⟩

theorem semaphore_capacity_and_fifo_witness :
    (1 : Int) ≤ 1 ∧
    semRunTrace 1 [SemOp.acq 0, SemOp.acq 1, SemOp.rel, SemOp.rel] = some stC3 ∧
    ((stC3.holders : Int) ≤ 1 ∧
      stC3.sem.permits + (stC3.holders : Int) = 1 ∧
      0 ≤ stC3.sem.permits ∧
      stC3.enqueued = stC3.dequeued ++ stC3.sem.tasks) :=
  ⟨by decide, by rfl,
    semaphore_capacity_and_fifo 1 (by decide) [SemOp.acq 0, SemOp.acq 1, SemOp.rel, SemOp.rel]
      stC3 (by rfl)⟩

/-- C5 counterexample: constructing a Semaphore with capacity 0 is not
rejected.  The constructor accepts the value and produces a gate with zero
permits, on which an acquire is queued rather than granted — contradicting
the claim that construction fails for capacity < 1. -/
theorem gate_zero_capacity_constructed :
    mkSemaphore 0 = { permits := 0, tasks := [] } ∧
    (semAcquire 7 (mkSemaphore 0)).2 = false ∧
    (semAcquire 7 (mkSemaphore 0)).1 = { permits := 0, tasks := [7] } :=
  ⟨rfl, rfl, rfl⟩

/-- C5 (amended): the Semaphore constructor performs no validation: any
capacity (including 0 or negative) is accepted and produces a gate with
that permit count; on a gate of capacity ≤ 0 every acquire is queued,
never granted synchronously. -/
theorem gate_construction_unvalidated (c : Int) (id : Nat) (hc : c ≤ 0) :
    mkSemaphore c = { permits := c, tasks := [] } ∧
    (semAcquire id (mkSemaphore c)).2 = false ∧
    (semAcquire id (mkSemaphore c)).1 = { permits := c, tasks := [id] } := by
  have h : ¬ (0 < c) := by omega
  refine ⟨rfl, ?_, ?_⟩
  · simp [semAcquire, mkSemaphore, h]
  · simp [semAcquire, mkSemaphore, h]

theorem gate_construction_unvalidated_witness :
    (0 : Int) ≤ 0 ∧
    (mkSemaphore 0 = { permits := 0, tasks := [] } ∧
      (semAcquire 7 (mkSemaphore 0)).2 = false ∧
      (semAcquire 7 (mkSemaphore 0)).1 = { permits := 0, tasks := [7] }) :=
  ⟨by decide, gate_construction_unvalidated 0 7 (by decide)⟩

/-- C6: the concurrency profile is a deterministic function of the host
hints: with positive reported values, conservative mode holds exactly when
the memory hint is below 4 or the parallelism hint is below 4; an absent
hint never by itself triggers conservative mode (both absent gives
`false`); the per-item ceiling is 1 in conservative mode and otherwise the
fixed default `MAX_RESUME_PROCESSING = 2`. -/
theorem conservative_mode_policy (m : ℚ) (c : ℕ) (hm : 0 < m) (hc : 0 < c) :
    (shouldUseConservativeMode { deviceMemory := some m, hardwareConcurrency := some c } = true
      ↔ (m < 4 ∨ c < 4)) ∧
    shouldUseConservativeMode { deviceMemory := none, hardwareConcurrency := none } = false ∧
    (shouldUseConservativeMode { deviceMemory := some m, hardwareConcurrency := none } = true
      ↔ m < 4) ∧
    (shouldUseConservativeMode { deviceMemory := none, hardwareConcurrency := some c } = true
      ↔ c < 4) ∧
    (maxConcurrentResumes { deviceMemory := some m, hardwareConcurrency := some c }
      = if m < 4 ∨ c < 4 then 1 else ConcurrencyConfig.MAX_RESUME_PROCESSING) ∧
    ConcurrencyConfig.MAX_RESUME_PROCESSING = 2 := by
  have hm' : m ≠ 0 := hm.ne'
  have hc' : c ≠ 0 := hc.ne'
  have hmain : shouldUseConservativeMode
      { deviceMemory := some m, hardwareConcurrency := some c }
      = (decide (m < 4) || decide (c < 4)) := by
    simp [shouldUseConservativeMode, memoryLow, coresLow, hm', hc']
  refine ⟨?_, rfl, ?_, ?_, ?_, rfl⟩
  · rw [hmain]
    simp
  · simp [shouldUseConservativeMode, memoryLow, coresLow, hm']
  · simp [shouldUseConservativeMode, memoryLow, coresLow, hc']
  · rw [maxConcurrentResumes, hmain]
    by_cases h4 : m < 4 ∨ c < 4
    · rw [if_pos h4, if_pos (by simpa using h4)]
    · rw [if_neg h4, if_neg (by simpa using h4)]

theorem conservative_mode_policy_witness :
    (0 : ℚ) < 2 ∧ 0 < 8 ∧
    ((shouldUseConservativeMode { deviceMemory := some 2, hardwareConcurrency := some 8 } = true
        ↔ ((2 : ℚ) < 4 ∨ (8 : ℕ) < 4)) ∧
      shouldUseConservativeMode { deviceMemory := none, hardwareConcurrency := none } = false ∧
      (shouldUseConservativeMode { deviceMemory := some 2, hardwareConcurrency := none } = true
        ↔ (2 : ℚ) < 4) ∧
      (shouldUseConservativeMode { deviceMemory := none, hardwareConcurrency := some 8 } = true
        ↔ (8 : ℕ) < 4) ∧
      (maxConcurrentResumes { deviceMemory := some 2, hardwareConcurrency := some 8 }
        = if (2 : ℚ) < 4 ∨ (8 : ℕ) < 4 then 1 else ConcurrencyConfig.MAX_RESUME_PROCESSING) ∧
      ConcurrencyConfig.MAX_RESUME_PROCESSING = 2) :=
  ⟨by decide, by decide, conservative_mode_policy 2 8 (by decide) (by decide)⟩

/-- C7: the side task (`api.rankProjects`) is started exactly when the
batch has more than one file; the run's envelope is a function of the
awaited side-task outcome, holding the complete ordered per-item results
with the ranking field `none` when the side task failed (its error is
swallowed by the `catch`), so a side-task failure never fails the batch. -/
theorem side_task_policy {ι A R E E2 : Type} (files : List ι) (g : ℕ → ι → A)
    (side : Except E R) :
    (sideTaskStarted files = true ↔ 1 < files.length) ∧
    runBatch files (fun x i => (Except.ok (g i x) : Except E2 A)) side =
      Except.ok { results := mapIdxF g 0 files,
                  projectRanking :=
                    if sideTaskStarted files then catchToOption side else none } := by
  constructor
  · simp [sideTaskStarted]
  · simp [runBatch, collectAll_mapIdxF_ok]

/-- C10: when no JSON object or array can be extracted from the LLM
response and parsed, `analyzeResumeMatch` does not fail: it returns the
fixed fallback scores 70 and 65 with empty strengths and gaps, while
`matched_skills`/`missing_skills` are still computed from the fixed
built-in skill list (matched = skills of the list found in both texts,
missing = job-description skills absent from the resume), independent of
the LLM output.  The host `JSON.parse` is abstracted by `tryParse`;
parse failure is `none`. -/
theorem analyze_fallback_on_unparseable (tryParse : String → Option LLMAnalysis)
    (resumeText jobDescription response : String)
    (hfail : Option.bind (jsonExtract response) tryParse = none) :
    analyzeResumeMatch tryParse resumeText jobDescription response =
      { overall_score := 70, ats_score := 65,
        matched_skills := (extractSkills resumeText).filter
          (fun s => (extractSkills jobDescription).contains s),
        missing_skills := (extractSkills jobDescription).filter
          (fun s => !((extractSkills resumeText).contains s)),
        strengths := [], gaps := [] } := by
  unfold analyzeResumeMatch parseJSON
  cases hje : jsonExtract response with
  | none => simp [hje]
  | some mtxt =>
    rw [hje] at hfail
    simp only [Option.some_bind] at hfail
    simp [hje, hfail]

theorem analyze_fallback_witness :
    Option.bind (jsonExtract respC10) (fun _ => (none : Option LLMAnalysis)) = none ∧
    analyzeResumeMatch (fun _ => none) resumeC10 jdC10 respC10 =
      { overall_score := 70, ats_score := 65,
        matched_skills := ["python"], missing_skills := ["java"],
        strengths := [], gaps := [] } :=
  ⟨by rfl,
    (analyze_fallback_on_unparseable (fun _ => none) resumeC10 jdC10 respC10 (by rfl)).trans
      (by rfl)⟩

/-- C4: for every input list, concurrency limit ≥ 0 and succeeding
per-item operation, whatever schedule the event loop chooses, a completed
`parallelLimit` run returns a list of the same length as the input whose
position i holds the operation's result for input item i — input order is
preserved regardless of completion order. -/
theorem mapper_preserves_input_order {ι α : Type} (items : List ι) (limit : Int)
    (g : ℕ → ι → α) (ph : ℕ → ι → List ℕ) (hlim : 0 ≤ limit) (st : PLState Unit α)
    (hreach : PLReach (mapIdxF (fun i x => (ph i x, Except.ok (g i x))) 0 items) limit st)
    (_hdone : st.tasks.countP isFinishedB = st.tasks.length) :
    plAll st = Except.ok (mapIdxF g 0 items) ∧ st.tasks.length = items.length := by
  obtain ⟨s, hinv⟩ := plReach_inv hlim hreach
  constructor
  · unfold plAll
    rw [hinv.res_eq, mapIdxF_map]
    exact collectAll_mapIdxF_ok g 0 items
  · rw [hinv.len_eq, mapIdxF_length]

theorem mapper_preserves_input_order_witness :
    (0 : Int) ≤ 2 ∧
    PLReach specsC4 2 stC4 ∧
    stC4.tasks.countP isFinishedB = stC4.tasks.length ∧
    plAll stC4 = Except.ok [10, 21, 32] ∧ stC4.tasks.length = 3 := by
  have H := mapper_preserves_input_order [10, 20, 30] 2 (fun i x => x + i) (fun _ _ => [0])
    (by decide) stC4 (plRun_reach PLReach.init [0, 1, 2]) (by decide)
  exact ⟨by decide, plRun_reach PLReach.init [0, 1, 2], by decide,
    H.1.trans (by rfl), H.2.trans (by rfl)⟩

/-- C2 counterexample: in a 2-item batch where item 0's operation throws
and item 1 succeeds, both invocations settle (the sibling is not
cancelled), but the value of `parallelLimit`'s promise is a rejection with
item 0's error — not an outcome list of length 2 with a failure at index
0 only, because `Promise.all` rejects on the first failure. -/
theorem mapper_failure_counterexample :
    PLReach specsC2 2 stC2 ∧
    stC2.tasks = [TStatus.finished (Except.error "boom"), TStatus.finished (Except.ok 1)] ∧
    plAll stC2 = Except.error "boom" :=
  ⟨plRun_reach PLReach.init [0, 1], rfl, rfl⟩

/-- C2 (amended): if exactly item k of N throws, every completed run still
settles all N invocations with their own outcomes in input order (admitted
siblings are not cancelled) and releases item k's permit (the semaphore
ends with all permits back and an empty queue), but the promise returned
by `parallelLimit` rejects with item k's error instead of returning an
outcome list — failure handling is delegated to the caller, which in
`handleSubmit` fails the whole batch. -/
theorem mapper_single_failure_amended {α ε : Type} (n k : ℕ) (res : ℕ → α) (e : ε)
    (limit : Int) (hk : k < n) (hlim : 0 ≤ limit) (st : PLState ε α)
    (hreach : PLReach (specsFail n k res e) limit st)
    (hdone : st.tasks.countP isFinishedB = st.tasks.length) :
    st.tasks = (List.range n).map (fun j => TStatus.finished (failOutcome k res e j)) ∧
    plAll st = Except.error e ∧
    st.sem.permits = limit ∧
    st.sem.tasks = [] := by
  obtain ⟨s, hinv⟩ := plReach_inv hlim hreach
  obtain ⟨hseq, hqe, hrc⟩ := plInv_complete hinv hdone
  have hall : ∀ t ∈ st.tasks, isFinishedB t := List.countP_eq_length.mp hdone
  have hmapsnd : (specsFail n k res e).map Prod.snd
      = (List.range n).map (failOutcome k res e) := by
    unfold specsFail
    rw [List.map_map]
    rfl
  have htasks : st.tasks = ((List.range n).map (failOutcome k res e)).map TStatus.finished :=
    finished_of_map _ _ hall (by rw [hinv.res_eq, hmapsnd])
  refine ⟨by rw [htasks, List.map_map]; rfl, ?_, ?_, hqe⟩
  · unfold plAll
    rw [hinv.res_eq, hmapsnd]
    refine collectAll_error_at _ k e ?_ ?_
    · rw [List.getElem?_map, List.getElem?_range hk]
      simp [failOutcome]
    · intro j hj
      refine ⟨res j, ?_⟩
      rw [List.getElem?_map, List.getElem?_range (by omega)]
      simp [failOutcome, show j ≠ k from by omega]
  · have := hinv.permits_eq
    rw [hrc] at this
    omega

theorem mapper_single_failure_witness :
    0 < 2 ∧ (0 : Int) ≤ 2 ∧
    PLReach (specsFail 2 0 (fun j => j * 10) "boom") 2 stC2w ∧
    stC2w.tasks.countP isFinishedB = stC2w.tasks.length ∧
    (stC2w.tasks
        = (List.range 2).map (fun j => TStatus.finished (failOutcome 0 (fun j => j * 10) "boom" j)) ∧
      plAll stC2w = Except.error "boom" ∧
      stC2w.sem.permits = 2 ∧
      stC2w.sem.tasks = []) :=
  ⟨by decide, by decide, plRun_reach PLReach.init [0, 1], by decide,
    mapper_single_failure_amended 2 0 (fun j => j * 10) "boom" 2 (by decide) (by decide)
      stC2w (plRun_reach PLReach.init [0, 1]) (by decide)⟩

/-- C8: in every reachable state of a `parallelLimit` run an operation
executes only while holding a permit (the permit count plus the number of
running operations always equals the limit, with permits never negative),
and once every operation has settled — whether it returned or threw —
every permit has been released by `execute`'s `finally`: the permit count
is back to the limit and no waiter is left queued.  No permit is ever
leaked. -/
theorem execute_releases_on_all_paths {ε α : Type} (specs : List (Spec ε α)) (limit : Int)
    (st : PLState ε α) (hlim : 0 ≤ limit) (hreach : PLReach specs limit st) :
    0 ≤ st.sem.permits ∧
    st.sem.permits + (runningCount st : Int) = limit ∧
    (runningCount st : Int) ≤ limit ∧
    (st.tasks.countP isFinishedB = st.tasks.length →
      st.sem.permits = limit ∧ st.sem.tasks = []) := by
  obtain ⟨s, hinv⟩ := plReach_inv hlim hreach
  refine ⟨hinv.permits_nonneg, hinv.permits_eq, ?_, ?_⟩
  · have h1 := hinv.permits_eq
    have h2 := hinv.permits_nonneg
    omega
  · intro hdone
    obtain ⟨hseq, hqe, hrc⟩ := plInv_complete hinv hdone
    have h1 := hinv.permits_eq
    rw [hrc] at h1
    exact ⟨by omega, hqe⟩

theorem execute_releases_witness :
    (0 : Int) ≤ 1 ∧
    PLReach specsC8 1 stC8 ∧
    (0 ≤ stC8.sem.permits ∧
      stC8.sem.permits + (runningCount stC8 : Int) = 1 ∧
      (runningCount stC8 : Int) ≤ 1 ∧
      (stC8.tasks.countP isFinishedB = stC8.tasks.length →
        stC8.sem.permits = 1 ∧ stC8.sem.tasks = [])) :=
  ⟨by decide, plRun_reach PLReach.init [0, 1, 1],
    execute_releases_on_all_paths specsC8 1 stC8 (by decide)
      (plRun_reach PLReach.init [0, 1, 1])⟩

/-- C1 counterexample: with the source's actual configuration — a batch of
5 resumes, per-item ceiling `MAX_RESUME_PROCESSING = 2`, and no inner gate
anywhere in the pipeline — a reachable state of the run has 4
concurrently-executing client-side LLM calls (two items simultaneously in
their 2-call enrichment fan-out), exceeding `MAX_LLM_CALLS = 3`.  No call
acquires any shared inner gate: `MAX_LLM_CALLS` is defined in
`ConcurrencyConfig` but never used by the orchestration. -/
theorem llm_gate_counterexample :
    PLReach (fuSpecs 5) 2 stC1 ∧
    llmCount stC1 = 4 ∧
    ConcurrencyConfig.MAX_LLM_CALLS = 3 ∧
    ConcurrencyConfig.MAX_RESUME_PROCESSING = 2 :=
  ⟨plRun_reach PLReach.init [0, 1, 0, 1], rfl, rfl, rfl⟩

/-- C1 (amended): no shared inner gate bounds backend LLM calls; instead,
because each item pipeline issues at most 2 concurrent LLM calls (one
during `analyzeResumeMatch`, two during the enrichment `Promise.all`) and
at most `limit` pipelines run concurrently under the outer semaphore, the
number of concurrently-executing client-side LLM calls in any reachable
state is bounded by 2·limit (= 4 with the default ceiling 2, and that
bound is attained); the side task issues no client-side LLM calls (it is
a single backend HTTP request). -/
theorem llm_calls_bounded_by_twice_ceiling (n : ℕ) (limit : Int) (st : PLState String Unit)
    (hlim : 0 ≤ limit) (hreach : PLReach (fuSpecs n) limit st) :
    (llmCount st : Int) ≤ 2 * limit := by
  obtain ⟨s, hinv⟩ := plReach_inv hlim hreach
  have hpoint : ∀ t ∈ st.tasks, headWeight t ≤ 2 * (if isRunningB t then 1 else 0) := by
    intro t ht
    cases t with
    | queued ph r => simp [headWeight, isRunningB]
    | finished r => simp [headWeight, isRunningB]
    | running ph r =>
      obtain ⟨j, hj⟩ := List.getElem?_of_mem ht
      obtain ⟨sp, hsp, hsuf⟩ := hinv.run_suffix j ph r hj
      have hjn : j < n := by
        have := lt_of_getElem?_some hsp
        simpa [fuSpecs] using this
      have hsp' : sp = (fuPhases, Except.ok ()) := by
        unfold fuSpecs at hsp
        rw [List.getElem?_replicate_of_lt hjn] at hsp
        exact (Option.some_inj.mp hsp).symm
      rw [hsp'] at hsuf
      have hmem : ph ∈ fuPhases.tails := (List.mem_tails _ _).mpr hsuf
      have htails : fuPhases.tails = [[0, 1, 2], [1, 2], [2], []] := rfl
      rw [htails] at hmem
      simp at hmem
      rcases hmem with h | h | h | h <;> simp [h, headWeight, isRunningB]
  have hsum := sum_headWeight_le st.tasks hpoint
  have h1 := hinv.permits_eq
  have h2 := hinv.permits_nonneg
  unfold llmCount
  unfold runningCount at h1
  omega

theorem llm_calls_bounded_witness :
    (0 : Int) ≤ 2 ∧
    PLReach (fuSpecs 5) 2 (plInit (fuSpecs 5) 2) ∧
    (llmCount (plInit (fuSpecs 5) 2) : Int) ≤ 2 * 2 :=
  ⟨by decide, PLReach.init,
    llm_calls_bounded_by_twice_ceiling 5 2 (plInit (fuSpecs 5) 2) (by decide) PLReach.init⟩

/-- C9 counterexample: the progress counter update `setCurrentFileIndex(i+1)`
is emitted when item i begins processing, not after an item completes: in
the initial state of a 1-item run the value 1 has already been emitted
while zero items have completed. -/
theorem progress_emitted_before_completion :
    PLReach specsC9 2 (plInit specsC9 2) ∧
    (plInit specsC9 2).emits = [1] ∧
    (plInit specsC9 2).tasks.countP isFinishedB = 0 :=
  ⟨PLReach.init, rfl, rfl⟩

/-- C9 (amended): each progress update is emitted when an item begins
processing (value = item index + 1); because admissions are FIFO in index
order, the emitted sequence in any reachable state is exactly 1,2,…,s
(strictly increasing, hence non-decreasing), every value is at most the
total N, and a completed run has emitted exactly 1..N, ending at N. -/
theorem progress_sequence_amended {ε α : Type} (specs : List (Spec ε α)) (limit : Int)
    (st : PLState ε α) (hlim : 0 ≤ limit) (hreach : PLReach specs limit st) :
    st.emits = List.range' 1 st.emits.length ∧
    st.emits.length ≤ specs.length ∧
    st.emits.Pairwise (· < ·) ∧
    st.emits.all (fun v => decide (v ≤ specs.length)) = true ∧
    (st.tasks.countP isFinishedB = st.tasks.length →
      st.emits = List.range' 1 specs.length) := by
  obtain ⟨s, hinv⟩ := plReach_inv hlim hreach
  have hlen : st.emits.length = s := by rw [hinv.emits_eq, length_range1]
  refine ⟨?_, ?_, ?_, ?_, ?_⟩
  · rw [hlen, hinv.emits_eq]
  · rw [hlen]
    exact hinv.s_le
  · rw [hinv.emits_eq]
    exact pairwise_lt_range1 1 s
  · rw [hinv.emits_eq, List.all_eq_true]
    intro v hv
    have h1 := (List.mem_range'_1).mp hv
    have h2 := hinv.s_le
    simp only [decide_eq_true_eq]
    omega
  · intro hdone
    obtain ⟨hseq, _, _⟩ := plInv_complete hinv hdone
    rw [hinv.emits_eq, hseq]

theorem progress_sequence_witness :
    (0 : Int) ≤ 2 ∧
    PLReach specsC9 2 stC9 ∧
    (stC9.emits = List.range' 1 stC9.emits.length ∧
      stC9.emits.length ≤ specsC9.length ∧
      stC9.emits.Pairwise (· < ·) ∧
      stC9.emits.all (fun v => decide (v ≤ specsC9.length)) = true ∧
      (stC9.tasks.countP isFinishedB = stC9.tasks.length →
        stC9.emits = List.range' 1 specsC9.length)) :=
  ⟨by decide, plRun_reach PLReach.init [0, 0, 0],
    progress_sequence_amended specsC9 2 stC9 (by decide)
      (plRun_reach PLReach.init [0, 0, 0])⟩

end ResumeReviewer
